import Mathlib

/-!
Verification of the MBR partition-table manager in
`Software Platform/services/posix/devio/blockio/src/blockio.c`.

The C functions `blockio_write_partitiontable`, `blockio_write_partitiontype`
and `blockio_select_partition` are shallowly embedded below.  Machine
integers are modelled as `Int`/`Nat` with explicit reduction modulo `2^32`
where the C code performs 32-bit arithmetic (`int32_t` values wrap through
`toInt32`, `uint32_t` values through `% 4294967296`).  Sector buffers are
byte maps `Nat → Nat`.  The device capability (`posix_devctl_blockio_impl_t`)
and configuration (`posix_devctl_blockio_cfg_t`) are modelled as a record of
oracle functions; every sector-level I/O call the code issues is additionally
recorded in an event trace so that "no I/O was performed" claims can be
stated.
-/

/-- Wrap an unbounded integer to the value of the `int32_t` holding it
(two's complement). -/
def toInt32 (n : Int) : Int := (n + 2147483648) % 4294967296 - 2147483648

/-- Device configuration, from `posix_devctl_blockio_cfg_t` (fields used by
blockio.c: `blksize`, `blktotal`, `blkstart`; all `uint32_t`). -/
structure BlockioCfg where
  blksize : Nat
  blktotal : Nat
  blkstart : Nat

/-- Error outcomes.  The first four correspond to the `BLOCKIO_ERROR_IO`,
`BLOCKIO_ERROR_BLOCKSIZE_UNSUPPORTED`, `BLOCKIO_ERROR_FDISK_DISKFULL` and
`BLOCKIO_ERROR_WRONG_MBR_SIGNATURE` codes returned by blockio.c.  Modelled
from the spec: the numeric values live in `blockio.h`, which is not among the
sources; the spec's error taxonomy (section 7) lists them as distinguishable
reasons and additionally names an `InvalidArgument` reason, which is included
here as a constructor so that claims about it can be stated (blockio.c itself
never returns it). -/
inductive BlockioError where
  | ioError
  | blocksizeUnsupported
  | diskFull
  | wrongSignature
  | invalidArgument
  deriving DecidableEq

/-- A sector-level I/O call issued through the device capability:
`read lba count` or `write lba count`. -/
inductive IOEvent where
  | read : Nat → Nat → IOEvent
  | write : Nat → Nat → IOEvent
  deriving DecidableEq

/-- The LBA an I/O event addresses. -/
def IOEvent.lba : IOEvent → Nat
  | .read l _ => l
  | .write l _ => l

/-- The device seen through `posix_devctl`: the capability table
(`read_sectors`, `write_sectors`, optional `sanity_check`) and the
configuration.  `implOk`/`cfgOk` model whether the two `posix_devctl`
lookups succeed.  `readData lba count` is the buffer contents a read
delivers, `readRet`/`writeRet` the sector counts the capability calls
return (negative on failure, as in C). -/
structure BlockDevice where
  cfg : BlockioCfg
  implOk : Bool
  cfgOk : Bool
  readData : Nat → Nat → (Nat → Nat)
  readRet : Nat → Nat → Int
  writeRet : Nat → Nat → Int
  sanity_check : Option (Nat → Nat → Nat → Bool)

/-! ## Little-endian field helpers

Modelled from the spec: `write_little32to16`, `write_little16to16`,
`read_little32from16` and `read_little16from16` come from `util_endian.h`,
which is not among the sources.  Per spec section 6 the multi-byte MBR
fields are little-endian byte sequences, which fixes these helpers'
behaviour. -/

/-- Modelled from the spec: store a 32-bit value little-endian at byte
offset `off` (util_endian.h `write_little32to16`). -/
def write_little32to16 (buf : Nat → Nat) (off : Nat) (v : Nat) : Nat → Nat :=
  fun j =>
    if j = off then v % 256
    else if j = off + 1 then v / 256 % 256
    else if j = off + 2 then v / 65536 % 256
    else if j = off + 3 then v / 16777216 % 256
    else buf j

/-- Modelled from the spec: store a 16-bit value little-endian at byte
offset `off` (util_endian.h `write_little16to16`). -/
def write_little16to16 (buf : Nat → Nat) (off : Nat) (v : Nat) : Nat → Nat :=
  fun j =>
    if j = off then v % 256
    else if j = off + 1 then v / 256 % 256
    else buf j

/-- Modelled from the spec: read a little-endian 32-bit value at byte
offset `off` (util_endian.h `read_little32from16`). -/
def read_little32from16 (buf : Nat → Nat) (off : Nat) : Nat :=
  buf off + 256 * buf (off + 1) + 65536 * buf (off + 2) + 16777216 * buf (off + 3)

/-- Modelled from the spec: read a little-endian 16-bit value at byte
offset `off` (util_endian.h `read_little16from16`). -/
def read_little16from16 (buf : Nat → Nat) (off : Nat) : Nat :=
  buf off + 256 * buf (off + 1)

/-! ## MBR layout

The `blockio_mbr_t` struct of blockio.c: 446 bytes of boot code, four
16-byte `blockio_mbr_partinfo_t` entries, a 2-byte signature.  Partition
entry `i` starts at byte offset `446 + 16*i`; within an entry, `state` is
at offset 0, `type` at 4, `startsector` at 8..11 (little-endian) and
`sectors` at 12..15 (little-endian).  The signature is at 510..511. -/

/-- Byte offset of partition entry `i` inside the MBR sector. -/
def mbrPartitionOffset (i : Nat) : Nat := 446 + 16 * i

/-- Byte offset the statement `mbr->partition[nr - 1].type = ...` of
`blockio_write_partitiontype` targets, as a function of the (unchecked)
partition number `nr`: `446 + 16*(nr-1) + 4`. -/
def mbrTypeOffset (nr : Int) : Int := 446 + 16 * (nr - 1) + 4

/-- The `blockio_mbr_partinfo_t` struct (one 16-byte partition entry). -/
structure MbrPartinfo where
  state : Nat
  begin_head : Nat
  begin_cylindersector0 : Nat
  begin_cylindersector1 : Nat
  type : Nat
  end_head : Nat
  end_cylindersector0 : Nat
  end_cylindersector1 : Nat
  startsector : Nat
  sectors : Nat
  deriving DecidableEq

/-- The `blockio_mbr_t` struct: boot code, 4 partition entries, signature. -/
structure Mbr where
  bootcode : Nat → Nat
  partition : Fin 4 → MbrPartinfo
  signature : Nat

/-- All single-byte fields of an entry are bytes and the two 32-bit fields
fit in 32 bits (the invariant the C `uint8_t` arrays maintain). -/
def MbrPartinfo.wf (p : MbrPartinfo) : Prop :=
  p.state < 256 ∧ p.begin_head < 256 ∧ p.begin_cylindersector0 < 256 ∧
  p.begin_cylindersector1 < 256 ∧ p.type < 256 ∧ p.end_head < 256 ∧
  p.end_cylindersector0 < 256 ∧ p.end_cylindersector1 < 256 ∧
  p.startsector < 4294967296 ∧ p.sectors < 4294967296

instance (p : MbrPartinfo) : Decidable p.wf := by
  unfold MbrPartinfo.wf; infer_instance

/-- Store a single byte (a `uint8_t` struct member) at offset `off`. -/
def writeByte (buf : Nat → Nat) (off : Nat) (v : Nat) : Nat → Nat :=
  fun j => if j = off then v % 256 else buf j

/-- Serialize one partition entry at byte offset `base`, laying the fields
out exactly as `blockio_mbr_partinfo_t` does. -/
def encodeEntry (buf : Nat → Nat) (base : Nat) (p : MbrPartinfo) : Nat → Nat :=
  write_little32to16
    (write_little32to16
      (writeByte
        (writeByte
          (writeByte
            (writeByte
              (writeByte
                (writeByte
                  (writeByte
                    (writeByte buf base p.state)
                    (base + 1) p.begin_head)
                  (base + 2) p.begin_cylindersector0)
                (base + 3) p.begin_cylindersector1)
              (base + 4) p.type)
            (base + 5) p.end_head)
          (base + 6) p.end_cylindersector0)
        (base + 7) p.end_cylindersector1)
      (base + 8) p.startsector)
    (base + 12) p.sectors

/-- Serialize a whole MBR into a 512-byte sector image (bytes outside the
boot-code, entry and signature regions are zero). -/
def encodeMbr (m : Mbr) : Nat → Nat :=
  write_little16to16
    (encodeEntry
      (encodeEntry
        (encodeEntry
          (encodeEntry
            (fun j => if j < 446 then m.bootcode j else 0)
            (mbrPartitionOffset 0) (m.partition 0))
          (mbrPartitionOffset 1) (m.partition 1))
        (mbrPartitionOffset 2) (m.partition 2))
      (mbrPartitionOffset 3) (m.partition 3))
    510 m.signature

/-- Deserialize one partition entry at byte offset `base`. -/
def decodeEntry (buf : Nat → Nat) (base : Nat) : MbrPartinfo :=
  ⟨buf base, buf (base + 1), buf (base + 2), buf (base + 3), buf (base + 4),
   buf (base + 5), buf (base + 6), buf (base + 7),
   read_little32from16 buf (base + 8), read_little32from16 buf (base + 12)⟩

/-- Deserialize a sector image as `blockio_mbr_t`. -/
def decodeMbr (buf : Nat → Nat) : Mbr :=
  ⟨buf, fun i => decodeEntry buf (mbrPartitionOffset i.val),
   read_little16from16 buf 510⟩

/-! ## The partition sizing algorithm of `blockio_write_partitiontable` -/

/-- First pass of `blockio_write_partitiontable` (the `// reserve absoluut
sizes` loop): each positive entry is converted from MB to sectors by
`size[i] *= 1024*1024/512` and subtracted from `sectorsleft`; each
non-positive entry's magnitude is accumulated into `relativetotal`.  All
arithmetic is `int32_t`/`int`, hence the `toInt32` wraps.  Returns the
updated entries, `sectorsleft` and `relativetotal`. -/
def absPass : List Int → Int → Int → List Int × Int × Int
  | [], sl, rt => ([], sl, rt)
  | v :: rest, sl, rt =>
    if 0 < v then
      let v' := toInt32 (v * 2048)
      let p := absPass rest (toInt32 (sl - v')) rt
      (v' :: p.1, p.2)
    else
      let p := absPass rest sl (toInt32 (rt - v))
      (v :: p.1, p.2)

/-- Second pass of `blockio_write_partitiontable` (the `// divide relative
sizes` loop): each still-negative entry becomes
`-(int32_t)(((int64_t)sectorstodivide * size[i] / relativetotal) & 0xFFFFFFFF)`
and is subtracted from `sectorsleft`.  `S` is the frozen `sectorstodivide`;
`Int.tdiv` is C's truncating division (division by zero, undefined in C,
is modelled by Lean's `Int.tdiv _ 0 = 0`). -/
def relPass (S rt : Int) : List Int → Int → List Int × Int
  | [], sl => ([], sl)
  | v :: rest, sl =>
    if v < 0 then
      let v' := toInt32 (- toInt32 (Int.tdiv (S * v) rt % 4294967296))
      let p := relPass S rt rest (toInt32 (sl - v'))
      (v' :: p.1, p.2)
    else
      let p := relPass S rt rest sl
      (v :: p.1, p.2)

/-- The `// write values into table` loop: starting from
`start = cfg.blkstart + RESERVED_SECTORS`, each entry with a non-zero
resolved size gets its little-endian `startsector`/`sectors` fields at the
struct offsets of entry `idx`, and `start += size[i]` advances in
`uint32_t` arithmetic.  Zero entries are skipped entirely. -/
def writeEntries : List Int → Nat → Nat → (Nat → Nat) → (Nat → Nat)
  | [], _, _, buf => buf
  | v :: rest, idx, start, buf =>
    if v ≠ 0 then
      writeEntries rest (idx + 1) (Int.toNat (((start : Int) + v) % 4294967296))
        (write_little32to16
          (write_little32to16 buf (mbrPartitionOffset idx + 8) start)
          (mbrPartitionOffset idx + 12) (Int.toNat (v % 4294967296)))
    else
      writeEntries rest (idx + 1) start buf

/-- Result of `blockio_write_partitiontable`: the returned value (leftover
MB, or an error), the caller's `size[]` array as mutated in place, the final
`sectorsleft` (in sectors), the MBR image handed to `write_sectors` (`none`
if the function bailed out before building it), and the I/O trace. -/
structure WriterResult where
  ret : Except BlockioError Int
  sizes : List Int
  sectorsleft : Int
  buf : Option (Nat → Nat)
  events : List IOEvent

/-- `blockio_write_partitiontable(fd, size)`.  Faithful to blockio.c:
devctl lookups first, `sectorsleft = cfg.blktotal - RESERVED_SECTORS`
(uint32 subtraction assigned to `int32_t`), block-size guard, absolute
pass, disk-full check, relative pass, table build into a zeroed sector,
`signature = 0xAA55`, one `write_sectors(device, buf, 0, 1)` call, and
finally `sectorsleft / 2048` as the leftover in MB. -/
def blockio_write_partitiontable (dev : BlockDevice) (size : List Int) :
    WriterResult :=
  if dev.implOk then
    if dev.cfgOk then
      let sl0 := toInt32 (((dev.cfg.blktotal : Int) + 4294967296 - 1) % 4294967296)
      if dev.cfg.blksize ≠ 512 then
        ⟨.error .blocksizeUnsupported, size, sl0, none, []⟩
      else
        let a := absPass size sl0 0
        if a.2.1 < 0 ∨ (a.2.1 = 0 ∧ a.2.2 ≠ 0) then
          ⟨.error .diskFull, a.1, a.2.1, none, []⟩
        else
          let r := relPass a.2.1 a.2.2 a.1 a.2.1
          let b := write_little16to16
            (writeEntries r.1 0 ((dev.cfg.blkstart + 1) % 4294967296) (fun _ => 0))
            510 43605
          if dev.writeRet 0 1 ≠ 1 then
            ⟨.error .ioError, r.1, r.2, some b, [.write 0 1]⟩
          else
            ⟨.ok (Int.tdiv r.2 2048), r.1, r.2, some b, [.write 0 1]⟩
    else ⟨.error .ioError, size, 0, none, []⟩
  else ⟨.error .ioError, size, 0, none, []⟩

/-- Result of `blockio_write_partitiontype`: status, the sector image
handed to `write_sectors` (`none` if the read already failed), I/O trace. -/
structure PatchResult where
  ret : Except BlockioError Unit
  buf : Option (Nat → Nat)
  events : List IOEvent

/-- `blockio_write_partitiontype(fd, nr, type)`.  Faithful to blockio.c:
devctl lookups, read 1 sector at `cfg.blkstart`, set
`mbr->partition[nr-1].type = type & 0xFF` (note: no range check on `nr`;
the byte poked is at `mbrTypeOffset nr`, wherever that lands), write the
sector back at `cfg.blkstart`. -/
def blockio_write_partitiontype (dev : BlockDevice) (nr : Int) (ptype : Nat) :
    PatchResult :=
  if dev.implOk then
    if dev.cfgOk then
      let bs := dev.cfg.blkstart
      if dev.readRet bs 1 ≠ 1 then
        ⟨.error .ioError, none, [.read bs 1]⟩
      else
        let b0 := dev.readData bs 1
        let b1 : Nat → Nat :=
          fun j => if (j : Int) = mbrTypeOffset nr then ptype % 256 else b0 j
        if dev.writeRet bs 1 ≠ 1 then
          ⟨.error .ioError, some b1, [.read bs 1, .write bs 1]⟩
        else
          ⟨.ok (), some b1, [.read bs 1, .write bs 1]⟩
    else ⟨.error .ioError, none, []⟩
  else ⟨.error .ioError, none, []⟩

/-- Result of `blockio_select_partition`: the return value (the selected
entry's `type` byte, or an error), the values stored through the
`blkstart`/`blkcount` output pointers, and the I/O trace. -/
structure SelectResult where
  ret : Except BlockioError Nat
  blkstart : Nat
  blkcount : Nat
  events : List IOEvent

/-- `blockio_select_partition(fd, nr, &blkstart, &blkcount)` for non-null
output pointers.  Faithful to blockio.c: outputs are zeroed first, then
`nr` outside `[1,4]` is rejected with `BLOCKIO_ERROR_IO`; devctl lookups;
read 1 sector at `cfg.blkstart`; signature check against `0xAA55`
(= 43605); extract entry `nr-1`'s fields; run the capability's
`sanity_check` if present, else the built-in
`*blkstart > cfg.blktotal || *blkcount > cfg.blktotal - *blkstart` check
(short-circuit, uint32 subtraction); on a failed check the outputs are
reset to 0. -/
def blockio_select_partition (dev : BlockDevice) (nr : Int) : SelectResult :=
  if nr < 1 ∨ 4 < nr then ⟨.error .ioError, 0, 0, []⟩
  else if dev.implOk then
    if dev.cfgOk then
      let bs := dev.cfg.blkstart
      if dev.readRet bs 1 ≠ 1 then ⟨.error .ioError, 0, 0, [.read bs 1]⟩
      else
        let b := dev.readData bs 1
        if read_little16from16 b 510 ≠ 43605 then
          ⟨.error .wrongSignature, 0, 0, [.read bs 1]⟩
        else
          let base := mbrPartitionOffset (nr - 1).toNat
          let st := read_little32from16 b (base + 8)
          let cnt := read_little32from16 b (base + 12)
          match dev.sanity_check with
          | some f =>
            if f st cnt dev.cfg.blktotal then
              ⟨.ok (b (base + 4)), st, cnt, [.read bs 1]⟩
            else ⟨.error .ioError, 0, 0, [.read bs 1]⟩
          | none =>
            if dev.cfg.blktotal < st then ⟨.error .ioError, 0, 0, [.read bs 1]⟩
            else if dev.cfg.blktotal - st < cnt then
              ⟨.error .ioError, 0, 0, [.read bs 1]⟩
            else ⟨.ok (b (base + 4)), st, cnt, [.read bs 1]⟩
    else ⟨.error .ioError, 0, 0, []⟩
  else ⟨.error .ioError, 0, 0, []⟩

/-- Read a byte of the sector image a `WriterResult` wrote (0 when no
write was reached). -/
def WriterResult.bufByte (r : WriterResult) (off : Nat) : Nat :=
  match r.buf with
  | some b => b off
  | none => 0

/-- Read a little-endian 32-bit field of the sector image a `WriterResult`
wrote (0 when no write was reached). -/
def WriterResult.bufField (r : WriterResult) (off : Nat) : Nat :=
  match r.buf with
  | some b => read_little32from16 b off
  | none => 0

/-- A device whose devctl lookups and I/O succeed, whose reads all deliver
the sector image `sector`, and which has no `sanity_check` capability. -/
def simpleDev (blksize blktotal blkstart : Nat) (sector : Nat → Nat) :
    BlockDevice :=
  ⟨⟨blksize, blktotal, blkstart⟩, true, true, fun _ _ => sector,
   fun _ _ => 1, fun _ _ => 1, none⟩

/-! ## Exact (unbounded-integer) views of the sizing arithmetic -/

/-- Exact total of the absolute slots' MB-to-sector conversions. -/
def posSum : List Int → Int
  | [] => 0
  | v :: r => (if 0 < v then v * 2048 else 0) + posSum r

/-- Exact total of the relative slots' weight magnitudes (what
`relativetotal` computes when it does not wrap). -/
def negSum : List Int → Int
  | [] => 0
  | v :: r => (if 0 < v then 0 else -v) + negSum r

/-- The proportional share a relative slot receives:
`floor(S * |v| / rt)` (truncating division of non-negatives). -/
def relResolve (S rt v : Int) : Int := Int.tdiv (S * (-v)) rt

/-- Exact total of the relative slots' resolved shares. -/
def relSum (S rt : Int) : List Int → Int
  | [] => 0
  | v :: r => (if v < 0 then relResolve S rt v else 0) + relSum S rt r

theorem toInt32_eq_self {n : Int} (h1 : -2147483648 ≤ n) (h2 : n < 2147483648) :
    toInt32 n = n := by
  unfold toInt32; omega

theorem toInt32_range (n : Int) :
    -2147483648 ≤ toInt32 n ∧ toInt32 n < 2147483648 := by
  unfold toInt32; omega

theorem posSum_nonneg (l : List Int) : 0 ≤ posSum l := by
  induction l with
  | nil => simp [posSum]
  | cons v r ih =>
    simp only [posSum]
    have : 0 ≤ if 0 < v then v * 2048 else 0 := by split <;> omega
    omega

theorem negSum_nonneg (l : List Int) : 0 ≤ negSum l := by
  induction l with
  | nil => simp [negSum]
  | cons v r ih =>
    simp only [negSum]
    have : 0 ≤ if 0 < v then 0 else -v := by split <;> omega
    omega

theorem neg_le_negSum {l : List Int} {v : Int} (hm : v ∈ l) (hv : v < 0) :
    -v ≤ negSum l := by
  induction l with
  | nil => cases hm
  | cons w r ih =>
    simp only [negSum]
    have hr := negSum_nonneg r
    rcases List.mem_cons.mp hm with h | h
    · subst h
      rw [if_neg (by omega)]
      omega
    · have := ih h
      have : 0 ≤ if 0 < w then 0 else -w := by split <;> omega
      omega

theorem relResolve_nonneg {S rt v : Int} (hS : 0 ≤ S) (hrt : 0 < rt)
    (hv : v < 0) : 0 ≤ relResolve S rt v := by
  unfold relResolve
  rw [Int.tdiv_eq_ediv (by nlinarith) (by omega)]
  exact Int.ediv_nonneg (by nlinarith) (by omega)

theorem relResolve_le {S rt v : Int} (hS : 0 ≤ S) (hrt : 0 < rt)
    (hv : v < 0) (hle : -v ≤ rt) : relResolve S rt v ≤ S := by
  unfold relResolve
  rw [Int.tdiv_eq_ediv (by nlinarith) (by omega)]
  calc S * (-v) / rt ≤ S * rt / rt :=
        Int.ediv_le_ediv hrt (by nlinarith)
    _ = S := Int.mul_ediv_cancel S (by omega)

theorem relStep_eq {S rt v : Int} (hS : 0 ≤ S) (hS2 : S < 2147483648)
    (hrt : 0 < rt) (hv : v < 0) (hle : -v ≤ rt) :
    toInt32 (- toInt32 (Int.tdiv (S * v) rt % 4294967296)) = relResolve S rt v := by
  have h1 : S * v = -(S * (-v)) := by ring
  have h2 : Int.tdiv (S * v) rt = -(relResolve S rt v) := by
    rw [h1, Int.neg_tdiv]; rfl
  have h3 := relResolve_nonneg hS hrt hv
  have h4 := relResolve_le hS hrt hv hle
  rw [h2]
  unfold toInt32
  omega

theorem relSum_nonneg {S rt : Int} (hS : 0 ≤ S) (l : List Int)
    (h : ∀ v ∈ l, v < 0 → 0 < rt) : 0 ≤ relSum S rt l := by
  induction l with
  | nil => simp [relSum]
  | cons v r ih =>
    simp only [relSum]
    have hr := ih (fun w hw => h w (List.mem_cons_of_mem _ hw))
    have : 0 ≤ if v < 0 then relResolve S rt v else 0 := by
      split
      · exact relResolve_nonneg hS (h v (List.mem_cons_self _ _) (by assumption)) (by assumption)
      · omega
    omega

theorem relSum_mul_le {S rt : Int} (hS : 0 ≤ S) (hrt : 0 < rt)
    (l : List Int) (h : ∀ v ∈ l, v < 0 → -v ≤ rt) :
    relSum S rt l * rt ≤ S * negSum l := by
  induction l with
  | nil => simp [relSum, negSum]
  | cons v r ih =>
    simp only [relSum, negSum]
    have hr := ih (fun w hw => h w (List.mem_cons_of_mem _ hw))
    by_cases hv : v < 0
    · rw [if_pos hv, if_neg (by omega)]
      have hdm : relResolve S rt v * rt ≤ S * (-v) := by
        unfold relResolve
        rw [Int.tdiv_eq_ediv (by nlinarith) (by omega)]
        exact Int.ediv_mul_le _ (by omega)
      nlinarith
    · rw [if_neg hv]
      have : 0 ≤ if 0 < v then 0 else -v := by split <;> omega
      nlinarith
theorem relSum_le {S rt : Int} (hS : 0 ≤ S) (l : List Int)
    (hrtval : rt = negSum l)
    (h : ∀ v ∈ l, v < 0 → -v ≤ rt) : relSum S rt l ≤ S := by
  by_cases hpos : 0 < rt
  · have h1 := relSum_mul_le hS hpos l h
    rw [← hrtval] at h1
    nlinarith
  · have h0 : rt = 0 := by have := negSum_nonneg l; omega
    have hnone : ∀ v ∈ l, ¬ v < 0 := by
      intro v hv hvneg
      have := h v hv hvneg
      omega
    have : relSum S rt l = 0 := by
      clear hrtval h hpos h0
      induction l with
      | nil => rfl
      | cons v r ih =>
        simp only [relSum]
        rw [if_neg (hnone v (List.mem_cons_self _ _)), ih (fun w hw => hnone w (List.mem_cons_of_mem _ hw))]
        omega
    omega

theorem relPass_eq (S rt : Int) (hS : 0 ≤ S) (hS2 : S < 2147483648) :
    ∀ (l : List Int) (sl : Int), (∀ v ∈ l, v < 0 → 0 < rt ∧ -v ≤ rt) →
    relSum S rt l ≤ sl → sl < 2147483648 → 0 ≤ sl →
    relPass S rt l sl =
      (l.map (fun v => if v < 0 then relResolve S rt v else v),
       sl - relSum S rt l) := by
  intro l
  induction l with
  | nil => intro sl _ _ _ _; simp [relPass, relSum]
  | cons v rest ih =>
    intro sl h1 h2 h3 h4
    have hrest : ∀ w ∈ rest, w < 0 → 0 < rt ∧ -w ≤ rt :=
      fun w hw => h1 w (List.mem_cons_of_mem _ hw)
    have hsumrest : 0 ≤ relSum S rt rest :=
      relSum_nonneg hS rest (fun w hw hwn => (hrest w hw hwn).1)
    by_cases hv : v < 0
    · have hrt := (h1 v (List.mem_cons_self _ _) hv).1
      have hle := (h1 v (List.mem_cons_self _ _) hv).2
      have hm0 := relResolve_nonneg hS hrt hv
      have hmS := relResolve_le hS hrt hv hle
      have hstep := relStep_eq hS hS2 hrt hv hle
      have hsum : relSum S rt (v :: rest) = relResolve S rt v + relSum S rt rest := by
        simp [relSum, if_pos hv]
      simp only [relPass, if_pos hv, hstep]
      have hsl' : toInt32 (sl - relResolve S rt v) = sl - relResolve S rt v := by
        apply toInt32_eq_self <;> omega
      rw [hsl', ih (sl - relResolve S rt v) hrest (by omega) (by omega) (by omega)]
      simp only [List.map, if_pos hv, hsum]
      rw [sub_add_eq_sub_sub]
    · simp only [relPass, if_neg hv]
      have hsum : relSum S rt (v :: rest) = relSum S rt rest := by
        simp [relSum, if_neg hv]
      rw [ih sl hrest (by omega) h3 h4]
      simp only [List.map, if_neg hv, hsum]

theorem absPass_eq :
    ∀ (l : List Int) (sl rt : Int),
    (∀ v ∈ l, -2147483648 ≤ v ∧ v < 2147483648) →
    (∀ v ∈ l, 0 < v → v * 2048 < 2147483648) →
    sl < 2147483648 → -2147483648 ≤ sl - posSum l →
    0 ≤ rt → rt + negSum l < 2147483648 →
    absPass l sl rt =
      (l.map (fun v => if 0 < v then v * 2048 else v),
       sl - posSum l, rt + negSum l) := by
  intro l
  induction l with
  | nil => intro sl rt _ _ _ _ _ _; simp [absPass, posSum, negSum]
  | cons v rest ih =>
    intro sl rt h1 h2 h3 h4 h5 h6
    have hrest1 : ∀ w ∈ rest, -2147483648 ≤ w ∧ w < 2147483648 :=
      fun w hw => h1 w (List.mem_cons_of_mem _ hw)
    have hrest2 : ∀ w ∈ rest, 0 < w → w * 2048 < 2147483648 :=
      fun w hw => h2 w (List.mem_cons_of_mem _ hw)
    have hps := posSum_nonneg rest
    have hns := negSum_nonneg rest
    by_cases hv : 0 < v
    · have hconv := h2 v (List.mem_cons_self _ _) hv
      have hvpos : 0 < v * 2048 := by omega
      have hps1 : posSum (v :: rest) = v * 2048 + posSum rest := by
        simp [posSum, if_pos hv]
      have hns1 : negSum (v :: rest) = negSum rest := by
        simp [negSum, if_pos hv]
      have hv' : toInt32 (v * 2048) = v * 2048 := toInt32_eq_self (by omega) hconv
      simp only [absPass, if_pos hv, hv']
      have hsl' : toInt32 (sl - v * 2048) = sl - v * 2048 := by
        apply toInt32_eq_self <;> omega
      rw [hsl', ih (sl - v * 2048) rt hrest1 hrest2 (by omega) (by omega) h5 (by omega)]
      simp only [List.map, if_pos hv, hps1, hns1]
      rw [sub_add_eq_sub_sub]
    · have hps1 : posSum (v :: rest) = posSum rest := by
        simp [posSum, if_neg hv]
      have hns1 : negSum (v :: rest) = -v + negSum rest := by
        simp [negSum, if_neg hv]
      have hrt' : toInt32 (rt - v) = rt - v := by
        apply toInt32_eq_self
        · have := (h1 v (List.mem_cons_self _ _)).2
          omega
        · omega
      simp only [absPass, if_neg hv, hrt']
      rw [ih sl (rt - v) hrest1 hrest2 h3 (by omega) (by omega) (by omega)]
      simp only [List.map, if_neg hv, hps1, hns1]
      have h7 : rt - v + negSum rest = rt + (-v + negSum rest) := by ring
      rw [h7]
theorem mapRel_sum (S rt : Int) (l : List Int) :
    ((l.map (fun v => if 0 < v then v * 2048 else v)).map
      (fun v => if v < 0 then relResolve S rt v else v)).sum
      = posSum l + relSum S rt l := by
  induction l with
  | nil => simp [posSum, relSum]
  | cons v rest ih =>
    simp only [List.map, List.sum_cons, posSum, relSum, ih]
    by_cases hv : 0 < v
    · rw [if_pos hv, if_neg (by omega), if_pos hv, if_neg (by omega)]
      ring
    · rw [if_neg hv, if_neg hv]
      by_cases hv2 : v < 0
      · rw [if_pos hv2, if_pos hv2]
        ring
      · rw [if_neg hv2, if_neg hv2]
        have : v = 0 := by omega
        subst this
        ring

theorem mapAbs_relSum (S rt : Int) (l : List Int) :
    relSum S rt (l.map (fun v => if 0 < v then v * 2048 else v)) = relSum S rt l := by
  induction l with
  | nil => rfl
  | cons v rest ih =>
    simp only [List.map, relSum, ih]
    by_cases hv : 0 < v
    · rw [if_pos hv, if_neg (by omega), if_neg (by omega)]
    · rw [if_neg hv]

theorem mapAbs_neg_hyp {rt : Int} (l : List Int)
    (h : ∀ v ∈ l, v < 0 → 0 < rt ∧ -v ≤ rt) :
    ∀ w ∈ l.map (fun v => if 0 < v then v * 2048 else v), w < 0 → 0 < rt ∧ -w ≤ rt := by
  intro w hw hwneg
  rcases List.mem_map.mp hw with ⟨v, hv, hmap⟩
  by_cases hvpos : 0 < v
  · rw [if_pos hvpos] at hmap
    omega
  · rw [if_neg hvpos] at hmap
    subst hmap
    exact h v hv hwneg

/-- C1: for every size specification and device config accepted by the
sizing pass, with all intermediate `int32_t` computations in range
(`blktotal ≤ 2^31`, every absolute conversion below `2^31`, the absolute
allocations within the budget, relative weights totalling below `2^31`),
the reserved sector (1) plus the sum of the resolved sector counts plus the
leftover sector count equals `block_total` exactly. -/
theorem sizing_conservation (dev : BlockDevice) (size : List Int)
    (hI : dev.implOk = true) (hC : dev.cfgOk = true)
    (hbs : dev.cfg.blksize = 512)
    (ht1 : 1 ≤ dev.cfg.blktotal) (ht2 : dev.cfg.blktotal ≤ 2147483648)
    (hin : ∀ v ∈ size, -2147483648 ≤ v ∧ v < 2147483648)
    (hconv : ∀ v ∈ size, 0 < v → v * 2048 < 2147483648)
    (hbudget : posSum size ≤ (dev.cfg.blktotal : Int) - 1)
    (hrel0 : posSum size = (dev.cfg.blktotal : Int) - 1 → negSum size = 0)
    (hnegs : negSum size < 2147483648) :
    (blockio_write_partitiontable dev size).ret ≠ .error .diskFull ∧
    (blockio_write_partitiontable dev size).ret ≠ .error .blocksizeUnsupported ∧
    1 + (blockio_write_partitiontable dev size).sizes.sum +
      (blockio_write_partitiontable dev size).sectorsleft = (dev.cfg.blktotal : Int) := by
  have hps := posSum_nonneg size
  have hns := negSum_nonneg size
  have hBle : (dev.cfg.blktotal : Int) ≤ 2147483648 := by exact_mod_cast ht2
  have hBge : 1 ≤ (dev.cfg.blktotal : Int) := by exact_mod_cast ht1
  have hsl0 : toInt32 (((dev.cfg.blktotal : Int) + 4294967296 - 1) % 4294967296)
      = (dev.cfg.blktotal : Int) - 1 := by
    unfold toInt32; omega
  have habs := absPass_eq size ((dev.cfg.blktotal : Int) - 1) 0 hin hconv
    (by omega) (by omega) le_rfl (by omega)
  set B : Int := (dev.cfg.blktotal : Int) - 1 with hB
  set S : Int := B - posSum size with hSdef
  set rt : Int := negSum size with hrt
  have hS0 : 0 ≤ S := by omega
  have hS2 : S < 2147483648 := by omega
  have helem : ∀ v ∈ size, v < 0 → 0 < rt ∧ -v ≤ rt := by
    intro v hv hvneg
    have h1 := neg_le_negSum hv hvneg
    constructor <;> omega
  have hrelsum := relSum_le hS0 size hrt (fun v hv hvn => (helem v hv hvn).2)
  have hrel := relPass_eq S rt hS0 hS2
    (size.map (fun v => if 0 < v then v * 2048 else v)) S
    (mapAbs_neg_hyp size helem)
    (by rw [mapAbs_relSum]; exact hrelsum) hS2 hS0
  have hguard : ¬ (S < 0 ∨ (S = 0 ∧ (0 : Int) + negSum size ≠ 0)) := by
    simp only [zero_add]
    push_neg
    exact ⟨by omega, fun h0 => hrel0 (by omega)⟩
  simp only [blockio_write_partitiontable, hI, hC, if_true, hbs]
  rw [if_neg (by simp)]
  rw [hsl0, habs]
  simp only [zero_add]
  simp only [zero_add] at hguard
  rw [if_neg hguard, hrel]
  rw [mapAbs_relSum] at hrel ⊢
  by_cases hw : dev.writeRet 0 1 ≠ 1
  · rw [if_pos hw]
    refine ⟨by simp, by simp, ?_⟩
    simp only [mapRel_sum]
    omega
  · rw [if_neg hw]
    refine ⟨by simp, by simp, ?_⟩
    simp only [mapRel_sum]
    omega

/-- C1 counterexample: on a 1073741825-sector device, the specification
`[1000000, 1000000, 0, 0]` is accepted by the sizing pass (the running
`sectorsleft` wraps around `int32_t`), yet
`1 + Σ resolved + leftover = 5368709121 ≠ 1073741825`. -/
theorem sizing_conservation_cex :
    (blockio_write_partitiontable (simpleDev 512 1073741825 0 (fun _ => 0))
      [1000000, 1000000, 0, 0]).ret = .ok 621440 ∧
    1 + (blockio_write_partitiontable (simpleDev 512 1073741825 0 (fun _ => 0))
      [1000000, 1000000, 0, 0]).sizes.sum +
      (blockio_write_partitiontable (simpleDev 512 1073741825 0 (fun _ => 0))
      [1000000, 1000000, 0, 0]).sectorsleft
      ≠ (((simpleDev 512 1073741825 0 (fun _ => 0)).cfg.blktotal : Nat) : Int) := by
  constructor
  · rfl
  · decide

/-- Witness for `sizing_conservation`: the Scenario A inputs satisfy every
hypothesis and conservation holds there. -/
theorem sizing_conservation_witness :
    (blockio_write_partitiontable (simpleDev 512 1048576 0 (fun _ => 0))
      [10, -1, -4, 0]).ret ≠ .error .diskFull ∧
    (blockio_write_partitiontable (simpleDev 512 1048576 0 (fun _ => 0))
      [10, -1, -4, 0]).ret ≠ .error .blocksizeUnsupported ∧
    1 + (blockio_write_partitiontable (simpleDev 512 1048576 0 (fun _ => 0))
      [10, -1, -4, 0]).sizes.sum +
      (blockio_write_partitiontable (simpleDev 512 1048576 0 (fun _ => 0))
      [10, -1, -4, 0]).sectorsleft
      = (((simpleDev 512 1048576 0 (fun _ => 0)).cfg.blktotal : Nat) : Int) :=
  sizing_conservation (simpleDev 512 1048576 0 (fun _ => 0)) [10, -1, -4, 0]
    rfl rfl rfl (by decide) (by decide) (by decide) (by decide)
    (by decide) (by decide) (by decide)
deriving instance DecidableEq for Except

theorem absPass_length : ∀ (l : List Int) (sl rt : Int),
    (absPass l sl rt).1.length = l.length := by
  intro l
  induction l with
  | nil => intro sl rt; rfl
  | cons v rest ih =>
    intro sl rt
    by_cases hv : 0 < v
    · simp only [absPass, if_pos hv, List.length_cons, ih]
    · simp only [absPass, if_neg hv, List.length_cons, ih]

theorem absPass_getD : ∀ (l : List Int) (sl rt : Int) (i : Nat), i < l.length →
    (absPass l sl rt).1.getD i 0 =
      (if 0 < l.getD i 0 then toInt32 (l.getD i 0 * 2048) else l.getD i 0) := by
  intro l
  induction l with
  | nil => intro sl rt i h; simp at h
  | cons v rest ih =>
    intro sl rt i h
    cases i with
    | zero =>
      by_cases hv : 0 < v
      · simp [absPass, if_pos hv]
      · simp [absPass, if_neg hv]
    | succ n =>
      have hn : n < rest.length := by
        simp only [List.length_cons] at h
        omega
      by_cases hv : 0 < v
      · simp only [absPass, if_pos hv, List.getD_cons_succ]
        exact ih _ _ n hn
      · simp only [absPass, if_neg hv, List.getD_cons_succ]
        exact ih _ _ n hn

theorem absPass_sl_range : ∀ (l : List Int) (sl rt : Int),
    -2147483648 ≤ sl → sl < 2147483648 →
    -2147483648 ≤ (absPass l sl rt).2.1 ∧ (absPass l sl rt).2.1 < 2147483648 := by
  intro l
  induction l with
  | nil => intro sl rt h1 h2; exact ⟨h1, h2⟩
  | cons v rest ih =>
    intro sl rt h1 h2
    by_cases hv : 0 < v
    · simp only [absPass, if_pos hv]
      have hr := toInt32_range (sl - toInt32 (v * 2048))
      exact ih _ _ hr.1 hr.2
    · simp only [absPass, if_neg hv]
      exact ih _ _ h1 h2

theorem absPass_rt_eq : ∀ (l : List Int) (sl rt : Int),
    0 ≤ rt → rt + negSum l < 2147483648 → (∀ v ∈ l, -2147483648 ≤ v) →
    (absPass l sl rt).2.2 = rt + negSum l := by
  intro l
  induction l with
  | nil => intro sl rt _ _ _; simp [absPass, negSum]
  | cons v rest ih =>
    intro sl rt h1 h2 h3
    have hns := negSum_nonneg rest
    have hrest : ∀ w ∈ rest, -2147483648 ≤ w :=
      fun w hw => h3 w (List.mem_cons_of_mem _ hw)
    by_cases hv : 0 < v
    · have hns1 : negSum (v :: rest) = negSum rest := by simp [negSum, if_pos hv]
      simp only [absPass, if_pos hv]
      rw [ih _ rt h1 (by rw [← hns1]; exact h2) hrest, hns1]
    · have hns1 : negSum (v :: rest) = -v + negSum rest := by simp [negSum, if_neg hv]
      rw [hns1] at h2 ⊢
      have hrt' : toInt32 (rt - v) = rt - v := by
        apply toInt32_eq_self <;> omega
      simp only [absPass, if_neg hv, hrt']
      rw [ih _ (rt - v) (by omega) (by omega) hrest]
      ring

theorem relPass_length (S rt : Int) : ∀ (l : List Int) (sl : Int),
    (relPass S rt l sl).1.length = l.length := by
  intro l
  induction l with
  | nil => intro sl; rfl
  | cons v rest ih =>
    intro sl
    by_cases hv : v < 0
    · simp only [relPass, if_pos hv, List.length_cons, ih]
    · simp only [relPass, if_neg hv, List.length_cons, ih]

theorem relPass_getD (S rt : Int) : ∀ (l : List Int) (sl : Int) (i : Nat),
    i < l.length →
    (relPass S rt l sl).1.getD i 0 =
      (if l.getD i 0 < 0 then
        toInt32 (- toInt32 (Int.tdiv (S * l.getD i 0) rt % 4294967296))
      else l.getD i 0) := by
  intro l
  induction l with
  | nil => intro sl i h; simp at h
  | cons v rest ih =>
    intro sl i h
    cases i with
    | zero =>
      by_cases hv : v < 0
      · simp [relPass, if_pos hv]
      · simp [relPass, if_neg hv]
    | succ n =>
      have hn : n < rest.length := by
        simp only [List.length_cons] at h
        omega
      by_cases hv : v < 0
      · simp only [relPass, if_pos hv, List.getD_cons_succ]
        exact ih _ n hn
      · simp only [relPass, if_neg hv, List.getD_cons_succ]
        exact ih _ n hn

/-- C2: whenever the `int` accumulation of `relativetotal` does not wrap
(the relative weights' magnitudes sum to less than `2^31`), every slot with
a negative input value is resolved, against the frozen pre-relative-pass
budget (the `sectorsleft` value the absolute pass produced, not a shrinking
remainder), to `floor(budget * |weight| / relativetotal)` truncated to 32
bits; concretely, Scenario A resolves `[10, -1, -4, 0]` on a
1,048,576-sector 512-byte-block device to `[20480, 205619, 822476, 0]`
with leftover 0 MB. -/
theorem relative_resolution :
    (∀ (dev : BlockDevice) (size : List Int) (i : Nat),
      dev.implOk = true → dev.cfgOk = true → dev.cfg.blksize = 512 →
      (∀ v ∈ size, -2147483648 ≤ v ∧ v < 2147483648) →
      negSum size < 2147483648 →
      (blockio_write_partitiontable dev size).ret ≠ .error .diskFull →
      i < size.length → size.getD i 0 < 0 →
      (blockio_write_partitiontable dev size).sizes.getD i 0 =
        toInt32 (relResolve
          (absPass size
            (toInt32 (((dev.cfg.blktotal : Int) + 4294967296 - 1) % 4294967296))
            0).2.1
          (negSum size) (size.getD i 0))) ∧
    ((blockio_write_partitiontable (simpleDev 512 1048576 0 (fun _ => 0))
        [10, -1, -4, 0]).sizes = [20480, 205619, 822476, 0] ∧
     (blockio_write_partitiontable (simpleDev 512 1048576 0 (fun _ => 0))
        [10, -1, -4, 0]).ret = .ok 0) := by
  constructor
  · intro dev size i hI hC hbs hin hnegs hnd hi hneg
    have hns := negSum_nonneg size
    have hrteq : (absPass size
        (toInt32 (((dev.cfg.blktotal : Int) + 4294967296 - 1) % 4294967296))
        0).2.2 = negSum size := by
      rw [absPass_rt_eq size _ 0 le_rfl (by omega) (fun v hv => (hin v hv).1)]
      ring
    have hvmem : size.getD i 0 ∈ size := by
      rw [List.getD_eq_getElem size 0 hi]
      exact List.getElem_mem hi
    have hvle : -(size.getD i 0) ≤ negSum size := neg_le_negSum hvmem hneg
    have hrt_pos : 0 < negSum size := by omega
    have hSrange := absPass_sl_range size
      (toInt32 (((dev.cfg.blktotal : Int) + 4294967296 - 1) % 4294967296)) 0
      (toInt32_range _).1 (toInt32_range _).2
    by_cases hg : (absPass size
        (toInt32 (((dev.cfg.blktotal : Int) + 4294967296 - 1) % 4294967296))
        0).2.1 < 0 ∨
      ((absPass size
        (toInt32 (((dev.cfg.blktotal : Int) + 4294967296 - 1) % 4294967296))
        0).2.1 = 0 ∧
       (absPass size
        (toInt32 (((dev.cfg.blktotal : Int) + 4294967296 - 1) % 4294967296))
        0).2.2 ≠ 0)
    · exfalso
      apply hnd
      simp only [blockio_write_partitiontable, hI, hC, if_true, hbs]
      rw [if_neg (by simp), if_pos hg]
    · push_neg at hg
      have hS0 : 0 ≤ (absPass size
          (toInt32 (((dev.cfg.blktotal : Int) + 4294967296 - 1) % 4294967296))
          0).2.1 := hg.1
      have hm0 := relResolve_nonneg hS0 hrt_pos hneg
      have hmS := relResolve_le hS0 hrt_pos hneg hvle
      have key : (relPass
          (absPass size
            (toInt32 (((dev.cfg.blktotal : Int) + 4294967296 - 1) % 4294967296))
            0).2.1
          (absPass size
            (toInt32 (((dev.cfg.blktotal : Int) + 4294967296 - 1) % 4294967296))
            0).2.2
          (absPass size
            (toInt32 (((dev.cfg.blktotal : Int) + 4294967296 - 1) % 4294967296))
            0).1
          (absPass size
            (toInt32 (((dev.cfg.blktotal : Int) + 4294967296 - 1) % 4294967296))
            0).2.1).1.getD i 0 =
          toInt32 (relResolve
            (absPass size
              (toInt32 (((dev.cfg.blktotal : Int) + 4294967296 - 1) % 4294967296))
              0).2.1
            (negSum size) (size.getD i 0)) := by
        rw [relPass_getD _ _ _ _ i (by rw [absPass_length]; exact hi)]
        rw [absPass_getD size _ 0 i hi]
        rw [if_neg (show ¬ 0 < size.getD i 0 by omega)]
        rw [if_pos hneg, hrteq]
        rw [relStep_eq hS0 hSrange.2 hrt_pos hneg hvle]
        have hfin : toInt32 (relResolve
            (absPass size
              (toInt32 (((dev.cfg.blktotal : Int) + 4294967296 - 1) % 4294967296))
              0).2.1
            (negSum size) (size.getD i 0)) =
            relResolve
            (absPass size
              (toInt32 (((dev.cfg.blktotal : Int) + 4294967296 - 1) % 4294967296))
              0).2.1
            (negSum size) (size.getD i 0) :=
          toInt32_eq_self (by omega) (by omega)
        rw [hfin]
      simp only [blockio_write_partitiontable, hI, hC, if_true, hbs]
      rw [if_neg (by simp), if_neg (by push_neg; exact hg)]
      split
      · exact key
      · exact key
  · exact ⟨rfl, rfl⟩

/-- C2 counterexample: with two weights of magnitude `2^30` the `int`
accumulator `relativetotal` wraps to `-2^31`; on an 11-sector device the
claimed share would be `floor(10 * 2^30 / 2^31) = 5` (which 32-bit
truncation leaves at 5), but the code resolves both slots to `-5`. -/
theorem relative_resolution_cex :
    (blockio_write_partitiontable (simpleDev 512 11 0 (fun _ => 0))
      [-1073741824, -1073741824, 0, 0]).sizes.getD 0 0 = -5 ∧
    toInt32 (relResolve 10 2147483648 (-1073741824)) = 5 ∧
    ((-5 : Int) ≠ 5) := by
  refine ⟨rfl, by decide, by decide⟩

/-- Witness for `relative_resolution`: slot 2 of Scenario A. -/
theorem relative_resolution_witness :
    (blockio_write_partitiontable (simpleDev 512 1048576 0 (fun _ => 0))
      [10, -1, -4, 0]).sizes.getD 2 0 =
      toInt32 (relResolve
        (absPass ([10, -1, -4, 0] : List Int)
          (toInt32 ((((simpleDev 512 1048576 0 (fun _ => 0)).cfg.blktotal : Int)
            + 4294967296 - 1) % 4294967296))
          0).2.1
        (negSum [10, -1, -4, 0]) (([10, -1, -4, 0] : List Int).getD 2 0)) :=
  (relative_resolution).1 (simpleDev 512 1048576 0 (fun _ => 0)) [10, -1, -4, 0] 2
    rfl rfl rfl (by decide) (by decide) (by decide) (by decide) (by decide)

/-- C5: provided the absolute conversions and running subtraction stay in
`int32_t` range, a size specification whose absolute slots alone exceed
`block_total - 1` sectors fails with DiskFull before any sector I/O; and
in general the Writer performs no sector I/O at all before its single
`write_sectors(device, buf, 0, 1)` call, so any failure other than that
write call's own failure leaves the device untouched. -/
theorem diskfull_no_write (dev : BlockDevice) (size : List Int)
    (hI : dev.implOk = true) (hC : dev.cfgOk = true)
    (hbs : dev.cfg.blksize = 512)
    (ht1 : 1 ≤ dev.cfg.blktotal) (ht2 : dev.cfg.blktotal ≤ 2147483648)
    (hin : ∀ v ∈ size, -2147483648 ≤ v ∧ v < 2147483648)
    (hconv : ∀ v ∈ size, 0 < v → v * 2048 < 2147483648)
    (hnegs : negSum size < 2147483648)
    (hover : (dev.cfg.blktotal : Int) - 1 < posSum size)
    (hnw : -2147483648 ≤ (dev.cfg.blktotal : Int) - 1 - posSum size) :
    ((blockio_write_partitiontable dev size).ret = .error .diskFull ∧
     (blockio_write_partitiontable dev size).events = []) ∧
    (∀ (dev2 : BlockDevice) (size2 : List Int) (e : BlockioError),
      (blockio_write_partitiontable dev2 size2).ret = .error e →
      (blockio_write_partitiontable dev2 size2).events = [] ∨
      ((blockio_write_partitiontable dev2 size2).events = [IOEvent.write 0 1] ∧
        dev2.writeRet 0 1 ≠ 1)) := by
  constructor
  · have hns := negSum_nonneg size
    have hBle : (dev.cfg.blktotal : Int) ≤ 2147483648 := by exact_mod_cast ht2
    have hBge : 1 ≤ (dev.cfg.blktotal : Int) := by exact_mod_cast ht1
    have hsl0 : toInt32 (((dev.cfg.blktotal : Int) + 4294967296 - 1) % 4294967296)
        = (dev.cfg.blktotal : Int) - 1 := by
      unfold toInt32; omega
    have habs := absPass_eq size ((dev.cfg.blktotal : Int) - 1) 0 hin hconv
      (by omega) (by omega) le_rfl (by omega)
    simp only [blockio_write_partitiontable, hI, hC, if_true, hbs]
    rw [if_neg (by simp), hsl0, habs]
    rw [if_pos (by
      left
      show (dev.cfg.blktotal : Int) - 1 - posSum size < 0
      omega)]
    exact ⟨rfl, rfl⟩
  · intro dev2 size2 e he
    simp only [blockio_write_partitiontable] at he ⊢
    split_ifs at he ⊢ with h1 h2 h3 h4 h5
    all_goals first
      | (left; rfl)
      | (right; exact ⟨rfl, by assumption⟩)
      | exact absurd he (by simp)

/-- C5 counterexample: `[1048575, 1048575, 0, 0]` on a 1073741825-sector
device converts to `2 * 2147481600 = 4294963200` sectors of absolute
requests, far above `block_total - 1 = 1073741824`, yet the `int32_t`
`sectorsleft` wraps back to positive, no DiskFull is raised and the table
is written. -/
theorem diskfull_no_write_cex :
    ((1073741825 : Int) - 1 < posSum [1048575, 1048575, 0, 0]) ∧
    (blockio_write_partitiontable (simpleDev 512 1073741825 0 (fun _ => 0))
      [1048575, 1048575, 0, 0]).ret = .ok 524290 ∧
    (blockio_write_partitiontable (simpleDev 512 1073741825 0 (fun _ => 0))
      [1048575, 1048575, 0, 0]).events = [IOEvent.write 0 1] := by
  refine ⟨by decide, rfl, rfl⟩

/-- Witness for `diskfull_no_write`: asking for 1 MB on a 1000-sector
device fails with DiskFull and no I/O. -/
theorem diskfull_no_write_witness :
    (blockio_write_partitiontable (simpleDev 512 1000 0 (fun _ => 0))
      [1, 0, 0, 0]).ret = .error .diskFull ∧
    (blockio_write_partitiontable (simpleDev 512 1000 0 (fun _ => 0))
      [1, 0, 0, 0]).events = [] :=
  (diskfull_no_write (simpleDev 512 1000 0 (fun _ => 0)) [1, 0, 0, 0]
    rfl rfl rfl (by decide) (by decide) (by decide) (by decide) (by decide)
    (by decide) (by decide)).1

/-- C7 (as the code behaves): for `nr` outside `[1,4]`,
`blockio_select_partition` fails with the generic `BLOCKIO_ERROR_IO` code
and issues no device I/O. -/
theorem select_invalid_nr (dev : BlockDevice) (nr : Int)
    (h : nr < 1 ∨ 4 < nr) :
    (blockio_select_partition dev nr).ret = .error .ioError ∧
    (blockio_select_partition dev nr).events = [] := by
  unfold blockio_select_partition
  rw [if_pos h]
  exact ⟨rfl, rfl⟩

/-- C7 counterexample: at `nr = 5` the returned error is the generic
`BLOCKIO_ERROR_IO`, not a distinct InvalidArgument code (no device I/O is
issued, though). -/
theorem select_invalid_nr_cex :
    (blockio_select_partition (simpleDev 512 100 0 (fun _ => 0)) 5).ret
      = .error .ioError ∧
    (blockio_select_partition (simpleDev 512 100 0 (fun _ => 0)) 5).ret
      ≠ .error .invalidArgument ∧
    (blockio_select_partition (simpleDev 512 100 0 (fun _ => 0)) 5).events = [] := by
  refine ⟨rfl, by decide, rfl⟩

/-- Witness for `select_invalid_nr` at `nr = 7`. -/
theorem select_invalid_nr_witness :
    (blockio_select_partition (simpleDev 512 100 0 (fun _ => 0)) 7).ret
      = .error .ioError ∧
    (blockio_select_partition (simpleDev 512 100 0 (fun _ => 0)) 7).events = [] :=
  select_invalid_nr (simpleDev 512 100 0 (fun _ => 0)) 7 (by decide)

/-- C4: whenever `blockio_select_partition` returns an error (non-null
output pointers, `nr` in `[1,4]`), the `blkstart`/`blkcount` outputs are
both 0; in particular a first sector whose signature field is not `0xAA55`
always yields WrongSignature with a zeroed extent. -/
theorem select_error_zeroed (dev : BlockDevice) (nr : Int)
    (hn1 : 1 ≤ nr) (hn4 : nr ≤ 4) :
    (∀ e : BlockioError, (blockio_select_partition dev nr).ret = .error e →
      (blockio_select_partition dev nr).blkstart = 0 ∧
      (blockio_select_partition dev nr).blkcount = 0) ∧
    (dev.implOk = true → dev.cfgOk = true →
      dev.readRet dev.cfg.blkstart 1 = 1 →
      read_little16from16 (dev.readData dev.cfg.blkstart 1) 510 ≠ 43605 →
      (blockio_select_partition dev nr).ret = .error .wrongSignature ∧
      (blockio_select_partition dev nr).blkstart = 0 ∧
      (blockio_select_partition dev nr).blkcount = 0) := by
  have hnr : ¬(nr < 1 ∨ 4 < nr) := by omega
  constructor
  · intro e he
    cases hsc : dev.sanity_check with
    | none =>
      simp only [blockio_select_partition, if_neg hnr, hsc] at he ⊢
      split_ifs at he ⊢ <;>
        first
          | exact ⟨rfl, rfl⟩
          | exact absurd he (by simp)
    | some f =>
      simp only [blockio_select_partition, if_neg hnr, hsc] at he ⊢
      split_ifs at he ⊢ <;>
        first
          | exact ⟨rfl, rfl⟩
          | exact absurd he (by simp)
  · intro hI hC hr hsig
    simp only [blockio_select_partition, if_neg hnr, hI, hC, if_true]
    rw [if_neg (by simp [hr]), if_pos hsig]
    exact ⟨rfl, rfl, rfl⟩

/-- Witness for `select_error_zeroed`: an all-zero first sector has
signature 0 and is rejected with WrongSignature and a zeroed extent. -/
theorem select_error_zeroed_witness :
    (blockio_select_partition (simpleDev 512 100 0 (fun _ => 0)) 2).ret
      = .error .wrongSignature ∧
    (blockio_select_partition (simpleDev 512 100 0 (fun _ => 0)) 2).blkstart = 0 ∧
    (blockio_select_partition (simpleDev 512 100 0 (fun _ => 0)) 2).blkcount = 0 :=
  (select_error_zeroed (simpleDev 512 100 0 (fun _ => 0)) 2 (by decide)
    (by decide)).2 rfl rfl rfl (by decide)

/-- C6: for `nr` in `[1,4]` and successful devctl lookups, the Patcher
writes back exactly the sector it read with only entry `nr-1`'s type byte
changed to the given value, succeeds iff both transfers move exactly one
sector, and fails with the generic I/O error otherwise. -/
theorem patch_frame (dev : BlockDevice) (nr : Int) (ptype : Nat)
    (hI : dev.implOk = true) (hC : dev.cfgOk = true)
    (hn1 : 1 ≤ nr) (hn4 : nr ≤ 4) (hp : ptype < 256) :
    ((blockio_write_partitiontype dev nr ptype).ret = .ok () ↔
      (dev.readRet dev.cfg.blkstart 1 = 1 ∧ dev.writeRet dev.cfg.blkstart 1 = 1)) ∧
    ((blockio_write_partitiontype dev nr ptype).ret = .error .ioError ↔
      (dev.readRet dev.cfg.blkstart 1 ≠ 1 ∨ dev.writeRet dev.cfg.blkstart 1 ≠ 1)) ∧
    (dev.readRet dev.cfg.blkstart 1 = 1 →
      (blockio_write_partitiontype dev nr ptype).buf =
        some (fun (j : Nat) => if (j : Int) = mbrTypeOffset nr then ptype
          else dev.readData dev.cfg.blkstart 1 j)) := by
  have hbufeq : (fun (j : Nat) => if (j : Int) = mbrTypeOffset nr then ptype % 256
      else dev.readData dev.cfg.blkstart 1 j) =
      (fun (j : Nat) => if (j : Int) = mbrTypeOffset nr then ptype
      else dev.readData dev.cfg.blkstart 1 j) := by
    funext j
    split
    · exact Nat.mod_eq_of_lt hp
    · rfl
  unfold blockio_write_partitiontype
  rw [if_pos hI, if_pos hC]
  by_cases hr : dev.readRet dev.cfg.blkstart 1 ≠ 1
  · rw [if_pos hr]
    refine ⟨iff_of_false (fun h => Except.noConfusion h) (fun hh => hr hh.1),
            iff_of_true rfl (Or.inl hr), fun hh => absurd hh hr⟩
  · push_neg at hr
    rw [if_neg (by simp [hr])]
    by_cases hw : dev.writeRet dev.cfg.blkstart 1 ≠ 1
    · rw [if_pos hw]
      refine ⟨iff_of_false (fun h => Except.noConfusion h) (fun hh => hw hh.2),
              iff_of_true rfl (Or.inr hw), fun _ => ?_⟩
      rw [hbufeq]
    · push_neg at hw
      rw [if_neg (by simp [hw])]
      refine ⟨iff_of_true rfl ⟨hr, hw⟩,
              iff_of_false (fun h => Except.noConfusion h) ?_, fun _ => ?_⟩
      · rintro (h | h)
        · exact h hr
        · exact h hw
      · rw [hbufeq]

/-- Witness for `patch_frame`: a device whose sectors read as constant 3,
patched at entry 2 with type 0x83 = 131. -/
theorem patch_frame_witness :
    (blockio_write_partitiontype (simpleDev 512 100 7 (fun _ => 3)) 2 131).ret
      = .ok () ∧
    (blockio_write_partitiontype (simpleDev 512 100 7 (fun _ => 3)) 2 131).buf =
      some (fun (j : Nat) => if (j : Int) = mbrTypeOffset 2 then 131
        else (simpleDev 512 100 7 (fun _ => 3)).readData
          (simpleDev 512 100 7 (fun _ => 3)).cfg.blkstart 1 j) := by
  have h := patch_frame (simpleDev 512 100 7 (fun _ => 3)) 2 131 rfl rfl
    (by decide) (by decide) (by decide)
  exact ⟨h.1.mpr ⟨rfl, rfl⟩, h.2.2 rfl⟩

/-- C9: `blockio_write_partitiontype` performs no range check on `nr` (its
outcome is entirely independent of `nr`), and the byte it pokes,
`mbrTypeOffset nr`, lies inside the partition-entry array `[446, 510)`
exactly when `1 ≤ nr ≤ 4` (it is then entry `nr-1`'s type byte); `nr = 0`
targets byte 434 inside the boot code and `nr = 5` byte 514, beyond the
512-byte sector. -/
theorem patch_offset_bounds :
    (∀ nr : Int, (446 ≤ mbrTypeOffset nr ∧ mbrTypeOffset nr < 510) ↔
      (1 ≤ nr ∧ nr ≤ 4)) ∧
    (mbrTypeOffset 1 = (mbrPartitionOffset 0 : Int) + 4 ∧
     mbrTypeOffset 2 = (mbrPartitionOffset 1 : Int) + 4 ∧
     mbrTypeOffset 3 = (mbrPartitionOffset 2 : Int) + 4 ∧
     mbrTypeOffset 4 = (mbrPartitionOffset 3 : Int) + 4) ∧
    (mbrTypeOffset 0 = 434 ∧ (434 : Int) < 446) ∧
    (mbrTypeOffset 5 = 514 ∧ (512 : Int) ≤ 514) ∧
    (∀ (dev : BlockDevice) (ptype : Nat) (nr nr2 : Int),
      (blockio_write_partitiontype dev nr ptype).ret =
        (blockio_write_partitiontype dev nr2 ptype).ret ∧
      (blockio_write_partitiontype dev nr ptype).events =
        (blockio_write_partitiontype dev nr2 ptype).events) := by
  refine ⟨fun nr => by unfold mbrTypeOffset; omega,
    ⟨by decide, by decide, by decide, by decide⟩,
    ⟨by decide, by decide⟩, ⟨by decide, by decide⟩, ?_⟩
  intro dev ptype nr nr2
  simp only [blockio_write_partitiontype]
  split_ifs <;> exact ⟨rfl, rfl⟩

/-- C10: the Writer's single `write_sectors` call addresses absolute LBA 0
while the Patcher and Selector address `cfg.blkstart`; the operations hit
the same MBR sector precisely when `cfg.blkstart = 0`. -/
theorem mbr_lba_addressing (dev : BlockDevice) (size : List Int) (nr : Int)
    (ptype : Nat) (b : Nat → Nat)
    (hI : dev.implOk = true) (hC : dev.cfgOk = true)
    (hn1 : 1 ≤ nr) (hn4 : nr ≤ 4)
    (hr : dev.readRet dev.cfg.blkstart 1 = 1)
    (hw : dev.writeRet dev.cfg.blkstart 1 = 1)
    (hbuf : (blockio_write_partitiontable dev size).buf = some b) :
    (blockio_write_partitiontable dev size).events = [IOEvent.write 0 1] ∧
    (blockio_write_partitiontype dev nr ptype).events =
      [IOEvent.read dev.cfg.blkstart 1, IOEvent.write dev.cfg.blkstart 1] ∧
    (blockio_select_partition dev nr).events = [IOEvent.read dev.cfg.blkstart 1] ∧
    (∀ e ∈ (blockio_write_partitiontable dev size).events,
      ∀ e2 ∈ (blockio_write_partitiontype dev nr ptype).events,
        (IOEvent.lba e = IOEvent.lba e2 ↔ dev.cfg.blkstart = 0)) := by
  have hnr : ¬(nr < 1 ∨ 4 < nr) := by omega
  have h1 : (blockio_write_partitiontable dev size).events = [IOEvent.write 0 1] := by
    simp only [blockio_write_partitiontable] at hbuf ⊢
    split_ifs at hbuf ⊢ <;> first | rfl | exact absurd hbuf (by simp)
  have h2 : (blockio_write_partitiontype dev nr ptype).events =
      [IOEvent.read dev.cfg.blkstart 1, IOEvent.write dev.cfg.blkstart 1] := by
    unfold blockio_write_partitiontype
    rw [if_pos hI, if_pos hC, if_neg (by simp [hr]), if_neg (by simp [hw])]
  have h3 : (blockio_select_partition dev nr).events =
      [IOEvent.read dev.cfg.blkstart 1] := by
    cases hsc : dev.sanity_check with
    | none =>
      unfold blockio_select_partition
      rw [if_neg hnr, if_pos hI, if_pos hC, if_neg (by simp [hr])]
      simp only [hsc]
      split_ifs <;> rfl
    | some f =>
      unfold blockio_select_partition
      rw [if_neg hnr, if_pos hI, if_pos hC, if_neg (by simp [hr])]
      simp only [hsc]
      split_ifs <;> rfl
  refine ⟨h1, h2, h3, ?_⟩
  rw [h1, h2]
  intro e he e2 he2
  simp only [List.mem_cons, List.mem_singleton, List.not_mem_nil, or_false] at he he2
  subst he
  rcases he2 with rfl | rfl <;>
    simp only [IOEvent.lba] <;>
    exact eq_comm

/-- Witness for `mbr_lba_addressing` on a device with `blkstart = 3`. -/
theorem mbr_lba_addressing_witness :
    (blockio_write_partitiontable (simpleDev 512 100 3 (fun _ => 0))
      [0, 0, 0, 0]).events = [IOEvent.write 0 1] ∧
    (blockio_write_partitiontype (simpleDev 512 100 3 (fun _ => 0)) 1 7).events =
      [IOEvent.read 3 1, IOEvent.write 3 1] ∧
    (blockio_select_partition (simpleDev 512 100 3 (fun _ => 0)) 1).events =
      [IOEvent.read 3 1] := by
  have h := mbr_lba_addressing (simpleDev 512 100 3 (fun _ => 0)) [0, 0, 0, 0] 1 7
    (write_little16to16 (fun _ => 0) 510 43605) rfl rfl (by decide) (by decide)
    rfl rfl rfl
  exact ⟨h.1, h.2.1, h.2.2.1⟩

theorem write_little32to16_ne (buf : Nat → Nat) (off v j : Nat)
    (h : j < off ∨ off + 3 < j) : write_little32to16 buf off v j = buf j := by
  unfold write_little32to16
  rw [if_neg (by omega), if_neg (by omega), if_neg (by omega), if_neg (by omega)]

theorem write_little16to16_ne (buf : Nat → Nat) (off v j : Nat)
    (h : j < off ∨ off + 1 < j) : write_little16to16 buf off v j = buf j := by
  unfold write_little16to16
  rw [if_neg (by omega), if_neg (by omega)]

theorem writeByte_ne (buf : Nat → Nat) (off v j : Nat) (h : j ≠ off) :
    writeByte buf off v j = buf j := by
  unfold writeByte
  rw [if_neg h]

theorem read_write_little32 (buf : Nat → Nat) (off v : Nat)
    (hv : v < 4294967296) :
    read_little32from16 (write_little32to16 buf off v) off = v := by
  have e0 : write_little32to16 buf off v off = v % 256 := by
    unfold write_little32to16
    rw [if_pos rfl]
  have e1 : write_little32to16 buf off v (off + 1) = v / 256 % 256 := by
    unfold write_little32to16
    rw [if_neg (by omega), if_pos rfl]
  have e2 : write_little32to16 buf off v (off + 2) = v / 65536 % 256 := by
    unfold write_little32to16
    rw [if_neg (by omega), if_neg (by omega), if_pos rfl]
  have e3 : write_little32to16 buf off v (off + 3) = v / 16777216 % 256 := by
    unfold write_little32to16
    rw [if_neg (by omega), if_neg (by omega), if_neg (by omega), if_pos rfl]
  unfold read_little32from16
  rw [e0, e1, e2, e3]
  omega

theorem read_write_little16 (buf : Nat → Nat) (off v : Nat) (hv : v < 65536) :
    read_little16from16 (write_little16to16 buf off v) off = v := by
  have e0 : write_little16to16 buf off v off = v % 256 := by
    unfold write_little16to16
    rw [if_pos rfl]
  have e1 : write_little16to16 buf off v (off + 1) = v / 256 % 256 := by
    unfold write_little16to16
    rw [if_neg (by omega), if_pos rfl]
  unfold read_little16from16
  rw [e0, e1]
  omega

theorem read_little32from16_congr (b1 b2 : Nat → Nat) (off : Nat)
    (h : ∀ k, off ≤ k → k ≤ off + 3 → b1 k = b2 k) :
    read_little32from16 b1 off = read_little32from16 b2 off := by
  unfold read_little32from16
  rw [h off (by omega) (by omega), h (off + 1) (by omega) (by omega),
    h (off + 2) (by omega) (by omega), h (off + 3) (by omega) (by omega)]

theorem writeEntries_low : ∀ (l : List Int) (idx start : Nat) (buf : Nat → Nat)
    (j : Nat), j < mbrPartitionOffset idx → writeEntries l idx start buf j = buf j := by
  intro l
  induction l with
  | nil => intro idx start buf j _; rfl
  | cons v rest ih =>
    intro idx start buf j h
    unfold mbrPartitionOffset at h
    by_cases hv : v ≠ 0
    · simp only [writeEntries, if_pos hv]
      rw [ih (idx + 1) _ _ j (by unfold mbrPartitionOffset; omega)]
      rw [write_little32to16_ne _ _ _ _ (by unfold mbrPartitionOffset; omega)]
      rw [write_little32to16_ne _ _ _ _ (by unfold mbrPartitionOffset; omega)]
    · simp only [writeEntries, if_neg hv]
      exact ih (idx + 1) _ _ j (by unfold mbrPartitionOffset; omega)

theorem writeEntries_spec : ∀ (l : List Int) (idx start : Nat) (buf : Nat → Nat),
    start < 4294967296 →
    ∀ i, i < l.length →
    ((l.getD i 0 = 0 → ∀ k, mbrPartitionOffset (idx + i) ≤ k →
        k < mbrPartitionOffset (idx + i) + 16 →
        writeEntries l idx start buf k = buf k) ∧
     (l.getD i 0 ≠ 0 →
        read_little32from16 (writeEntries l idx start buf)
          (mbrPartitionOffset (idx + i) + 8)
          = Int.toNat (((start : Int) + (l.take i).sum) % 4294967296) ∧
        read_little32from16 (writeEntries l idx start buf)
          (mbrPartitionOffset (idx + i) + 12)
          = Int.toNat ((l.getD i 0) % 4294967296))) := by
  intro l
  induction l with
  | nil => intro idx start buf _ i hi; simp at hi
  | cons v rest ih =>
    intro idx start buf hst i hi
    cases i with
    | zero =>
      simp only [List.getD_cons_zero, List.take_zero, List.sum_nil, Nat.add_zero]
      by_cases hv : v ≠ 0
      · constructor
        · intro h0
          exact absurd h0 hv
        · intro _
          simp only [writeEntries, if_pos hv]
          have hcnt : Int.toNat (v % 4294967296) < 4294967296 := by omega
          constructor
          · rw [read_little32from16_congr _
              (write_little32to16
                (write_little32to16 buf (mbrPartitionOffset idx + 8) start)
                (mbrPartitionOffset idx + 12) (Int.toNat (v % 4294967296)))
              (mbrPartitionOffset idx + 8)
              (fun k hk1 hk2 => writeEntries_low rest (idx + 1) _ _ k
                (by unfold mbrPartitionOffset at *; omega))]
            rw [read_little32from16_congr _
              (write_little32to16 buf (mbrPartitionOffset idx + 8) start)
              (mbrPartitionOffset idx + 8)
              (fun k hk1 hk2 => write_little32to16_ne _ _ _ _ (by omega))]
            rw [read_write_little32 _ _ _ hst]
            omega
          · rw [read_little32from16_congr _
              (write_little32to16
                (write_little32to16 buf (mbrPartitionOffset idx + 8) start)
                (mbrPartitionOffset idx + 12) (Int.toNat (v % 4294967296)))
              (mbrPartitionOffset idx + 12)
              (fun k hk1 hk2 => writeEntries_low rest (idx + 1) _ _ k
                (by unfold mbrPartitionOffset at *; omega))]
            rw [read_write_little32 _ _ _ hcnt]
      · push_neg at hv
        constructor
        · intro _ k hk1 hk2
          simp only [writeEntries, if_neg (by omega : ¬ v ≠ 0)]
          rw [writeEntries_low rest (idx + 1) _ _ k
            (by unfold mbrPartitionOffset at *; omega)]
        · intro h0
          exact absurd hv h0
    | succ n =>
      have hn : n < rest.length := by
        simp only [List.length_cons] at hi
        omega
      have hidx : idx + (n + 1) = (idx + 1) + n := by omega
      simp only [List.getD_cons_succ, List.take_succ_cons, List.sum_cons, hidx]
      by_cases hv : v ≠ 0
      · simp only [writeEntries, if_pos hv]
        have hst' : Int.toNat (((start : Int) + v) % 4294967296) < 4294967296 := by
          omega
        have hrec := ih (idx + 1) (Int.toNat (((start : Int) + v) % 4294967296))
          (write_little32to16
            (write_little32to16 buf (mbrPartitionOffset idx + 8) start)
            (mbrPartitionOffset idx + 12) (Int.toNat (v % 4294967296)))
          hst' n hn
        constructor
        · intro h0 k hk1 hk2
          rw [hrec.1 h0 k hk1 hk2]
          rw [write_little32to16_ne _ _ _ _
            (by unfold mbrPartitionOffset at *; omega)]
          rw [write_little32to16_ne _ _ _ _
            (by unfold mbrPartitionOffset at *; omega)]
        · intro h0
          have h2 := hrec.2 h0
          refine ⟨?_, h2.2⟩
          rw [h2.1]
          have : ((Int.toNat (((start : Int) + v) % 4294967296) : Int)
              + (rest.take n).sum) % 4294967296
              = ((start : Int) + (v + (rest.take n).sum)) % 4294967296 := by
            omega
          rw [this]
      · push_neg at hv
        subst hv
        simp only [writeEntries]
        rw [if_neg (by omega : ¬ (0 : Int) ≠ 0)]
        have hrec := ih (idx + 1) start buf hst n hn
        constructor
        · intro h0 k hk1 hk2
          exact hrec.1 h0 k hk1 hk2
        · intro h0
          have h2 := hrec.2 h0
          refine ⟨?_, h2.2⟩
          rw [h2.1]
          have : ((start : Int) + (rest.take n).sum) % 4294967296
              = ((start : Int) + ((0 : Int) + (rest.take n).sum)) % 4294967296 := by
            omega
          rw [this]

/-- C3 (as the code behaves): in the MBR a successful
`blockio_write_partitiontable` builds, a slot with resolved size 0 is left
fully zeroed, and every slot with non-zero resolved size has its
little-endian `startsector` field equal to
`cfg.blkstart + 1 + (sum of the preceding resolved counts)` reduced mod
`2^32` (so the first non-zero slot starts at `cfg.blkstart + 1`, the
reserved-sector offset relative to the device's own base, not at absolute
sector 1) and its `sectors` field equal to its resolved count mod `2^32`. -/
theorem table_contiguity (dev : BlockDevice) (size : List Int) (b : Nat → Nat)
    (hlen : size.length = 4)
    (hbuf : (blockio_write_partitiontable dev size).buf = some b) :
    ∀ i, i < 4 →
      ((blockio_write_partitiontable dev size).sizes.getD i 0 = 0 →
        ∀ k, mbrPartitionOffset i ≤ k → k < mbrPartitionOffset i + 16 →
          b k = 0) ∧
      ((blockio_write_partitiontable dev size).sizes.getD i 0 ≠ 0 →
        read_little32from16 b (mbrPartitionOffset i + 8) =
          Int.toNat (((dev.cfg.blkstart : Int) + 1 +
            (((blockio_write_partitiontable dev size).sizes.take i).sum))
            % 4294967296) ∧
        read_little32from16 b (mbrPartitionOffset i + 12) =
          Int.toNat (((blockio_write_partitiontable dev size).sizes.getD i 0)
            % 4294967296)) := by
  simp only [blockio_write_partitiontable] at hbuf ⊢
  split_ifs at hbuf ⊢ with h1 h2 h3 h4 h5
  all_goals try (simp at hbuf; done)
  all_goals (
    injection hbuf with hb
    subst hb
    simp only []
    intro i hi
    have hlen2 : (relPass
        (absPass size (toInt32 (((dev.cfg.blktotal : Int) + 4294967296 - 1)
          % 4294967296)) 0).2.1
        (absPass size (toInt32 (((dev.cfg.blktotal : Int) + 4294967296 - 1)
          % 4294967296)) 0).2.2
        (absPass size (toInt32 (((dev.cfg.blktotal : Int) + 4294967296 - 1)
          % 4294967296)) 0).1
        (absPass size (toInt32 (((dev.cfg.blktotal : Int) + 4294967296 - 1)
          % 4294967296)) 0).2.1).1.length = 4 := by
      rw [relPass_length, absPass_length, hlen]
    have hst : (dev.cfg.blkstart + 1) % 4294967296 < 4294967296 := by omega
    have hspec := writeEntries_spec _ 0 ((dev.cfg.blkstart + 1) % 4294967296)
      (fun _ => 0) hst i (by rw [hlen2]; exact hi)
    simp only [Nat.zero_add] at hspec
    constructor
    · intro h0 k hk1 hk2
      rw [write_little16to16_ne _ _ _ _
        (by left; unfold mbrPartitionOffset at *; omega)]
      exact hspec.1 h0 k hk1 hk2
    · intro h0
      have h2 := hspec.2 h0
      constructor
      · rw [read_little32from16_congr
          (write_little16to16 _ 510 43605) _ (mbrPartitionOffset i + 8)
          (fun k hk1 hk2 => write_little16to16_ne _ _ _ _
            (by left; unfold mbrPartitionOffset at *; omega))]
        rw [h2.1]
        omega
      · rw [read_little32from16_congr
          (write_little16to16 _ 510 43605) _ (mbrPartitionOffset i + 12)
          (fun k hk1 hk2 => write_little16to16_ne _ _ _ _
            (by left; unfold mbrPartitionOffset at *; omega))]
        exact h2.2)

/-- C3 counterexample: on a device with `blkstart = 5`, a successful
`write_partition_table([1,0,0,0])` gives the first (and only) non-zero
slot the start sector `blkstart + 1 = 6`, not the reserved-sector offset 1. -/
theorem table_contiguity_cex :
    (blockio_write_partitiontable (simpleDev 512 1000000 5 (fun _ => 0))
      [1, 0, 0, 0]).ret = .ok 487 ∧
    (blockio_write_partitiontable (simpleDev 512 1000000 5 (fun _ => 0))
      [1, 0, 0, 0]).sizes.getD 0 0 = 2048 ∧
    (blockio_write_partitiontable (simpleDev 512 1000000 5 (fun _ => 0))
      [1, 0, 0, 0]).bufField (mbrPartitionOffset 0 + 8) = 6 ∧
    (6 : Nat) ≠ 1 := by
  refine ⟨rfl, rfl, rfl, by decide⟩

/-- Witness for `table_contiguity`: Scenario A's table; slot 1's
`startsector` field reads back as `0 + 1 + 20480 = 20481`. -/
theorem table_contiguity_witness :
    read_little32from16
      (write_little16to16
        (writeEntries [20480, 205619, 822476, 0] 0 1 (fun _ => 0)) 510 43605)
      (mbrPartitionOffset 1 + 8) = 20481 := by
  have h := table_contiguity (simpleDev 512 1048576 0 (fun _ => 0))
    [10, -1, -4, 0]
    (write_little16to16
      (writeEntries [20480, 205619, 822476, 0] 0 1 (fun _ => 0)) 510 43605)
    rfl (by with_unfolding_all rfl) 1 (by omega)
  have h2 := (h.2 (by decide)).1
  rw [h2]
  decide

theorem encodeEntry_ne (buf : Nat → Nat) (base : Nat) (p : MbrPartinfo)
    (k : Nat) (h : k < base ∨ base + 15 < k) :
    encodeEntry buf base p k = buf k := by
  unfold encodeEntry
  rw [write_little32to16_ne _ _ _ _ (by omega),
    write_little32to16_ne _ _ _ _ (by omega),
    writeByte_ne _ _ _ _ (by omega), writeByte_ne _ _ _ _ (by omega),
    writeByte_ne _ _ _ _ (by omega), writeByte_ne _ _ _ _ (by omega),
    writeByte_ne _ _ _ _ (by omega), writeByte_ne _ _ _ _ (by omega),
    writeByte_ne _ _ _ _ (by omega), writeByte_ne _ _ _ _ (by omega)]

theorem decodeEntry_congr (b1 b2 : Nat → Nat) (base : Nat)
    (h : ∀ k, base ≤ k → k ≤ base + 15 → b1 k = b2 k) :
    decodeEntry b1 base = decodeEntry b2 base := by
  unfold decodeEntry
  rw [h base (by omega) (by omega), h (base + 1) (by omega) (by omega),
    h (base + 2) (by omega) (by omega), h (base + 3) (by omega) (by omega),
    h (base + 4) (by omega) (by omega), h (base + 5) (by omega) (by omega),
    h (base + 6) (by omega) (by omega), h (base + 7) (by omega) (by omega),
    read_little32from16_congr b1 b2 (base + 8)
      (fun k hk1 hk2 => h k (by omega) (by omega)),
    read_little32from16_congr b1 b2 (base + 12)
      (fun k hk1 hk2 => h k (by omega) (by omega))]

theorem decode_encodeEntry (buf : Nat → Nat) (base : Nat) (p : MbrPartinfo)
    (hwf : p.wf) : decodeEntry (encodeEntry buf base p) base = p := by
  obtain ⟨w0, w1, w2, w3, w4, w5, w6, w7, w8, w9⟩ := hwf
  have skip2 : ∀ k, k ≤ base + 7 →
      encodeEntry buf base p k =
      writeByte
        (writeByte
          (writeByte
            (writeByte
              (writeByte
                (writeByte
                  (writeByte
                    (writeByte buf base p.state)
                    (base + 1) p.begin_head)
                  (base + 2) p.begin_cylindersector0)
                (base + 3) p.begin_cylindersector1)
              (base + 4) p.type)
            (base + 5) p.end_head)
          (base + 6) p.end_cylindersector0)
        (base + 7) p.end_cylindersector1 k := by
    intro k hk
    unfold encodeEntry
    rw [write_little32to16_ne _ _ _ _ (by omega),
      write_little32to16_ne _ _ _ _ (by omega)]
  have e0 : encodeEntry buf base p base = p.state := by
    rw [skip2 base (by omega)]
    rw [writeByte_ne _ _ _ _ (by omega), writeByte_ne _ _ _ _ (by omega),
      writeByte_ne _ _ _ _ (by omega), writeByte_ne _ _ _ _ (by omega),
      writeByte_ne _ _ _ _ (by omega), writeByte_ne _ _ _ _ (by omega),
      writeByte_ne _ _ _ _ (by omega)]
    unfold writeByte
    rw [if_pos rfl]
    omega
  have e1 : encodeEntry buf base p (base + 1) = p.begin_head := by
    rw [skip2 (base + 1) (by omega)]
    rw [writeByte_ne _ _ _ _ (by omega), writeByte_ne _ _ _ _ (by omega),
      writeByte_ne _ _ _ _ (by omega), writeByte_ne _ _ _ _ (by omega),
      writeByte_ne _ _ _ _ (by omega), writeByte_ne _ _ _ _ (by omega)]
    unfold writeByte
    rw [if_pos rfl]
    omega
  have e2 : encodeEntry buf base p (base + 2) = p.begin_cylindersector0 := by
    rw [skip2 (base + 2) (by omega)]
    rw [writeByte_ne _ _ _ _ (by omega), writeByte_ne _ _ _ _ (by omega),
      writeByte_ne _ _ _ _ (by omega), writeByte_ne _ _ _ _ (by omega),
      writeByte_ne _ _ _ _ (by omega)]
    unfold writeByte
    rw [if_pos rfl]
    omega
  have e3 : encodeEntry buf base p (base + 3) = p.begin_cylindersector1 := by
    rw [skip2 (base + 3) (by omega)]
    rw [writeByte_ne _ _ _ _ (by omega), writeByte_ne _ _ _ _ (by omega),
      writeByte_ne _ _ _ _ (by omega), writeByte_ne _ _ _ _ (by omega)]
    unfold writeByte
    rw [if_pos rfl]
    omega
  have e4 : encodeEntry buf base p (base + 4) = p.type := by
    rw [skip2 (base + 4) (by omega)]
    rw [writeByte_ne _ _ _ _ (by omega), writeByte_ne _ _ _ _ (by omega),
      writeByte_ne _ _ _ _ (by omega)]
    unfold writeByte
    rw [if_pos rfl]
    omega
  have e5 : encodeEntry buf base p (base + 5) = p.end_head := by
    rw [skip2 (base + 5) (by omega)]
    rw [writeByte_ne _ _ _ _ (by omega), writeByte_ne _ _ _ _ (by omega)]
    unfold writeByte
    rw [if_pos rfl]
    omega
  have e6 : encodeEntry buf base p (base + 6) = p.end_cylindersector0 := by
    rw [skip2 (base + 6) (by omega)]
    rw [writeByte_ne _ _ _ _ (by omega)]
    unfold writeByte
    rw [if_pos rfl]
    omega
  have e7 : encodeEntry buf base p (base + 7) = p.end_cylindersector1 := by
    rw [skip2 (base + 7) (by omega)]
    unfold writeByte
    rw [if_pos rfl]
    omega
  have e8 : read_little32from16 (encodeEntry buf base p) (base + 8)
      = p.startsector := by
    unfold encodeEntry
    rw [read_little32from16_congr _
      (write_little32to16
        (writeByte
          (writeByte
            (writeByte
              (writeByte
                (writeByte
                  (writeByte
                    (writeByte
                      (writeByte buf base p.state)
                      (base + 1) p.begin_head)
                    (base + 2) p.begin_cylindersector0)
                  (base + 3) p.begin_cylindersector1)
                (base + 4) p.type)
              (base + 5) p.end_head)
            (base + 6) p.end_cylindersector0)
          (base + 7) p.end_cylindersector1)
        (base + 8) p.startsector)
      (base + 8)
      (fun k hk1 hk2 => write_little32to16_ne _ _ _ _ (by omega))]
    exact read_write_little32 _ _ _ w8
  have e9 : read_little32from16 (encodeEntry buf base p) (base + 12)
      = p.sectors := by
    unfold encodeEntry
    exact read_write_little32 _ _ _ w9
  unfold decodeEntry
  rw [e0, e1, e2, e3, e4, e5, e6, e7, e8, e9]

/-- C8: encoding an MBR record into a sector image with the
`write_little` helpers at the `blockio_mbr_t` offsets and decoding it with
the `read_little` helpers reproduces every field exactly (boot-code bytes
pass through unchanged), for all in-range field values. -/
theorem mbr_roundtrip (m : Mbr) (hwf : ∀ i : Fin 4, (m.partition i).wf)
    (hsig : m.signature < 65536) :
    (∀ i : Fin 4, (decodeMbr (encodeMbr m)).partition i = m.partition i) ∧
    (decodeMbr (encodeMbr m)).signature = m.signature ∧
    (∀ j, j < 446 → (decodeMbr (encodeMbr m)).bootcode j = m.bootcode j) := by
  refine ⟨?_, ?_, ?_⟩
  · intro i
    fin_cases i
    · show decodeEntry (encodeMbr m) (mbrPartitionOffset 0) = m.partition 0
      rw [decodeEntry_congr (encodeMbr m)
        (encodeEntry (fun j => if j < 446 then m.bootcode j else 0)
          (mbrPartitionOffset 0) (m.partition 0))
        (mbrPartitionOffset 0)
        (fun k hk1 hk2 => by
          unfold mbrPartitionOffset at hk1 hk2
          unfold encodeMbr
          rw [write_little16to16_ne _ _ _ _ (by omega),
            encodeEntry_ne _ _ _ _ (by unfold mbrPartitionOffset; omega),
            encodeEntry_ne _ _ _ _ (by unfold mbrPartitionOffset; omega),
            encodeEntry_ne _ _ _ _ (by unfold mbrPartitionOffset; omega)])]
      exact decode_encodeEntry _ _ _ (hwf 0)
    · show decodeEntry (encodeMbr m) (mbrPartitionOffset 1) = m.partition 1
      rw [decodeEntry_congr (encodeMbr m)
        (encodeEntry
          (encodeEntry (fun j => if j < 446 then m.bootcode j else 0)
            (mbrPartitionOffset 0) (m.partition 0))
          (mbrPartitionOffset 1) (m.partition 1))
        (mbrPartitionOffset 1)
        (fun k hk1 hk2 => by
          unfold mbrPartitionOffset at hk1 hk2
          unfold encodeMbr
          rw [write_little16to16_ne _ _ _ _ (by omega),
            encodeEntry_ne _ _ _ _ (by unfold mbrPartitionOffset; omega),
            encodeEntry_ne _ _ _ _ (by unfold mbrPartitionOffset; omega)])]
      exact decode_encodeEntry _ _ _ (hwf 1)
    · show decodeEntry (encodeMbr m) (mbrPartitionOffset 2) = m.partition 2
      rw [decodeEntry_congr (encodeMbr m)
        (encodeEntry
          (encodeEntry
            (encodeEntry (fun j => if j < 446 then m.bootcode j else 0)
              (mbrPartitionOffset 0) (m.partition 0))
            (mbrPartitionOffset 1) (m.partition 1))
          (mbrPartitionOffset 2) (m.partition 2))
        (mbrPartitionOffset 2)
        (fun k hk1 hk2 => by
          unfold mbrPartitionOffset at hk1 hk2
          unfold encodeMbr
          rw [write_little16to16_ne _ _ _ _ (by omega),
            encodeEntry_ne _ _ _ _ (by unfold mbrPartitionOffset; omega)])]
      exact decode_encodeEntry _ _ _ (hwf 2)
    · show decodeEntry (encodeMbr m) (mbrPartitionOffset 3) = m.partition 3
      rw [decodeEntry_congr (encodeMbr m)
        (encodeEntry
          (encodeEntry
            (encodeEntry
              (encodeEntry (fun j => if j < 446 then m.bootcode j else 0)
                (mbrPartitionOffset 0) (m.partition 0))
              (mbrPartitionOffset 1) (m.partition 1))
            (mbrPartitionOffset 2) (m.partition 2))
          (mbrPartitionOffset 3) (m.partition 3))
        (mbrPartitionOffset 3)
        (fun k hk1 hk2 => by
          unfold mbrPartitionOffset at hk1 hk2
          unfold encodeMbr
          rw [write_little16to16_ne _ _ _ _ (by omega)])]
      exact decode_encodeEntry _ _ _ (hwf 3)
  · show read_little16from16 (encodeMbr m) 510 = m.signature
    unfold encodeMbr
    exact read_write_little16 _ _ _ hsig
  · intro j hj
    show encodeMbr m j = m.bootcode j
    unfold encodeMbr
    rw [write_little16to16_ne _ _ _ _ (by omega),
      encodeEntry_ne _ _ _ _ (by unfold mbrPartitionOffset; omega),
      encodeEntry_ne _ _ _ _ (by unfold mbrPartitionOffset; omega),
      encodeEntry_ne _ _ _ _ (by unfold mbrPartitionOffset; omega),
      encodeEntry_ne _ _ _ _ (by unfold mbrPartitionOffset; omega)]
    rw [if_pos hj]

/-- Witness for `mbr_roundtrip` on a concrete MBR record. -/
theorem mbr_roundtrip_witness :
    (decodeMbr (encodeMbr
      ⟨fun _ => 7, fun _ => ⟨0, 1, 2, 3, 4, 5, 6, 7, 123456789, 987654321⟩,
        43605⟩)).partition 2 =
      ⟨0, 1, 2, 3, 4, 5, 6, 7, 123456789, 987654321⟩ ∧
    (decodeMbr (encodeMbr
      (⟨fun _ => 7, fun _ => ⟨0, 1, 2, 3, 4, 5, 6, 7, 123456789, 987654321⟩,
        43605⟩ : Mbr))).signature = 43605 ∧
    (decodeMbr (encodeMbr
      (⟨fun _ => 7, fun _ => ⟨0, 1, 2, 3, 4, 5, 6, 7, 123456789, 987654321⟩,
        43605⟩ : Mbr))).bootcode 17 = 7 := by
  have h := mbr_roundtrip
    ⟨fun _ => 7, fun _ => ⟨0, 1, 2, 3, 4, 5, 6, 7, 123456789, 987654321⟩,
      43605⟩ (by decide) (by decide)
  exact ⟨h.1 2, h.2.1, h.2.2 17 (by decide)⟩
